import Mathlib

/-!
Verification development for the SKIRT medium-system core.

The repository provides the MediumSystem interface (MediumSystem.hpp) with
detailed behavioural documentation, together with the implementations of
SimulationItem (SimulationItem.cpp) and TextInFile (TextInFile.cpp). The
MediumSystem member-function bodies live in a translation unit that is not
part of the source tree, so those operations are modelled here from the
specification text, faithful to its words; SimulationItem and TextInFile are
embedded directly from their C++ sources. All numeric quantities are
modelled over the rationals.
-/

namespace Skirt

/-- A path segment: the index of the spatial cell being crossed and the
geometric length of the crossing. A path is the ordered sequence of
(cell-index, segment-length) pairs produced by the spatial grid. -/
structure Segment where
  cell : Nat
  ds : ℚ
  deriving DecidableEq

/-- Modelled from the spec: the optical depth contributed by one path
segment, tau_m = (Delta s)_m times the summed extinction opacity of the
medium components matching the material-type filter in the crossed cell.
The per-cell summed opacity Sum_h k_mh is abstracted as the function k,
because the MediumSystem implementation file is missing from the tree. -/
def segTau (k : Nat → ℚ) (s : Segment) : ℚ :=
  s.ds * k s.cell

/-- Total geometric length of a path. -/
def totalLength (path : List Segment) : ℚ :=
  (path.map Segment.ds).sum

/-- Modelled from the spec: the full-path optical-depth query
(MediumSystem::getOpticalDepth over a SpatialGridPath), missing from the
tree. It sums the per-segment optical depths over every segment of the
path: tau_path = Sum_m (Delta s)_m Sum_h k_mh. -/
def getOpticalDepthPath (k : Nat → ℚ) (path : List Segment) : ℚ :=
  (path.map (segTau k)).sum

/-- Modelled from the spec: the cumulative optical-depth values written by
the forced-scattering trace, starting from the accumulated value t. The
returned list holds the value at the entry boundary of each segment
followed by the value at the exit boundary of the final segment. -/
def cumTauBoundaries (k : Nat → ℚ) (t : ℚ) : List Segment → List ℚ
  | [] => [t]
  | s :: rest => t :: cumTauBoundaries k (t + segTau k s) rest

/-- Modelled from the spec: the forced-scattering trace
(MediumSystem::setOpticalDepths), missing from the tree. It walks the path
and records the cumulative optical depth at every segment boundary, with
tau = 0 at path entry by definition. -/
def setOpticalDepths (k : Nat → ℚ) (path : List Segment) : List ℚ :=
  cumTauBoundaries k 0 path

/-- Modelled from the spec: the interaction-point search loop of
MediumSystem::setInteractionPoint, missing from the tree. Starting at
distance d with accumulated optical depth t, it walks segments accumulating
optical depth and distance until the accumulated optical depth reaches the
target tauscat; on success it linearly interpolates the interaction
distance within the final segment; if the path is exhausted before the
target is reached it signals failure by returning none. -/
def interactionWalk (k : Nat → ℚ) (tauscat : ℚ) : List Segment → ℚ → ℚ → Option ℚ
  | [], _, _ => none
  | s :: rest, d, t =>
    if tauscat < t + segTau k s then some (d + (tauscat - t) * s.ds / segTau k s)
    else interactionWalk k tauscat rest (d + s.ds) (t + segTau k s)

/-- Modelled from the spec: MediumSystem::setInteractionPoint, missing from
the tree. Returns the interpolated interaction distance, or none when the
interaction optical depth is never reached within the path. -/
def setInteractionPoint (k : Nat → ℚ) (tauscat : ℚ) (path : List Segment) : Option ℚ :=
  interactionWalk k tauscat path 0 0

/-- Result of the distance-limited peel-off trace: either a finite optical
depth or the effectively-infinite sentinel. -/
inductive ODResult
  | finite (tau : ℚ)
  | infinite
  deriving DecidableEq

/-- Modelled from the spec: the loop of the distance-limited peel-off trace
(MediumSystem::getOpticalDepth with a distance argument), missing from the
tree. Only segments whose entry boundary lies at a cumulative distance
below the cutoff are included; other segments are skipped. After adding
each included segment the accumulated optical depth is compared against
taumax = ln(L / Lmin), abstracted here as a parameter; once it exceeds
taumax the trace aborts and returns the effectively-infinite sentinel. -/
def peelOffWalk (k : Nat → ℚ) (cutoff taumax : ℚ) : List Segment → ℚ → ℚ → ODResult
  | [], _, t => .finite t
  | s :: rest, d, t =>
    if d < cutoff then
      if taumax < t + segTau k s then .infinite
      else peelOffWalk k cutoff taumax rest (d + s.ds) (t + segTau k s)
    else peelOffWalk k cutoff taumax rest (d + s.ds) t

/-- Modelled from the spec: the distance-limited peel-off optical-depth
trace, missing from the tree. -/
def getOpticalDepthLim (k : Nat → ℚ) (cutoff taumax : ℚ) (path : List Segment) : ODResult :=
  peelOffWalk k cutoff taumax path 0 0

/-- The total optical depth of the segments included by the distance cutoff
(those whose entry boundary lies at a cumulative distance below cutoff),
starting from entry distance d. -/
def includedTau (k : Nat → ℚ) (cutoff : ℚ) : List Segment → ℚ → ℚ
  | [], _ => 0
  | s :: rest, d =>
    (if d < cutoff then segTau k s else 0) + includedTau k cutoff rest (d + s.ds)

/-- Modelled from the spec: the three radiation-field tally tables of
MediumSystem, each indexed by spatial cell m and wavelength bin ell:
rf1 holds the primary contribution, rf2 the stable secondary contribution,
and rf2c the secondary contribution currently being accumulated. -/
structure RFState where
  rf1 : Nat → Nat → ℚ
  rf2 : Nat → Nat → ℚ
  rf2c : Nat → Nat → ℚ

/-- Modelled from the spec: MediumSystem::clearRadiationField, missing from
the tree. If primary is true it zeroes both the primary table and the
stable secondary table; otherwise it zeroes just the temporary secondary
table, leaving the stable secondary table untouched. -/
def clearRadiationField (primary : Bool) (s : RFState) : RFState :=
  if primary then { s with rf1 := fun _ _ => 0, rf2 := fun _ _ => 0 }
  else { s with rf2c := fun _ _ => 0 }

/-- Pointwise addition of a value into one (cell, bin) entry of a table. -/
def addAt (table : Nat → Nat → ℚ) (m ell : Nat) (v : ℚ) : Nat → Nat → ℚ :=
  fun m1 ell1 => if m1 = m ∧ ell1 = ell then table m1 ell1 + v else table m1 ell1

/-- Modelled from the spec: MediumSystem::storeRadiationField, missing from
the tree. Adds the value L times Delta s into the addressed bin of the
primary table when primary is true, and of the temporary secondary table
otherwise. -/
def storeRadiationField (primary : Bool) (m ell : Nat) (v : ℚ) (s : RFState) : RFState :=
  if primary then { s with rf1 := addAt s.rf1 m ell v }
  else { s with rf2c := addAt s.rf2c m ell v }

/-- Modelled from the spec: MediumSystem::communicateRadiationField, missing
from the tree. It merges the partial sums contributed by the cooperating
processes (the merge is the identity in this single-process model) and, when
primary is false, copies the now-synchronized temporary secondary table into
the stable secondary table. -/
def communicateRadiationField (primary : Bool) (s : RFState) : RFState :=
  if primary then s else { s with rf2 := s.rf2c }

/-- Modelled from the spec: MediumSystem::radiationField, missing from the
tree. Returns the sum of the primary and the stable secondary tables at the
given cell and wavelength indices. -/
def radiationField (s : RFState) (m ell : Nat) : ℚ :=
  s.rf1 m ell + s.rf2 m ell

/-- Modelled from the spec: one wavelength bin of MediumSystem::meanIntensity,
missing from the tree. J = (accumulated L Delta s) / (fourPi V_m dlam_ell),
where fourPi abstracts the constant 4 pi, V gives the cell volumes and dlam
the wavelength-bin widths. -/
def meanIntensity (fourPi : ℚ) (V dlam : Nat → ℚ) (s : RFState) (m ell : Nat) : ℚ :=
  radiationField s m ell / (fourPi * V m * dlam ell)

/-- A sequence of storeRadiationField calls with primary set to false, each
given as (cell, bin, value). -/
def storeAllSecondary (stores : List (Nat × Nat × ℚ)) (s : RFState) : RFState :=
  stores.foldl (fun st p => storeRadiationField false p.1 p.2.1 p.2.2 st) s

/-- Modelled from the spec: the per-component scattering-opacity weights of
MediumSystem::weightsForScattering, missing from the tree. Given the list of
scattering opacities of the medium components in the interaction cell, it
reports failure (none) if all of them are zero, and otherwise returns the
weights normalized to a total of unity. -/
def weightsForScattering (ks : List ℚ) : Option (List ℚ) :=
  if ks.all (fun x => x = 0) then none
  else some (ks.map (fun x => x / ks.sum))

/-- A three-component vector over the rationals, standing in for the Vec
class of the C++ code. -/
structure Vec where
  x : ℚ
  y : ℚ
  z : ℚ
  deriving DecidableEq

/-- Componentwise vector addition. -/
def vadd (a b : Vec) : Vec :=
  ⟨a.x + b.x, a.y + b.y, a.z + b.z⟩

/-- Scalar multiplication of a vector. -/
def vsmul (c : ℚ) (a : Vec) : Vec :=
  ⟨c * a.x, c * a.y, c * a.z⟩

/-- Modelled from the spec: MediumSystem::bulkVelocity, missing from the
tree. Given the per-component (number density, bulk velocity) records of one
cell, it averages the component velocities over the number densities:
v = (Sum_h n_h v_h) / (Sum_h n_h). -/
def bulkVelocity (comps : List (ℚ × Vec)) : Vec :=
  vsmul ((comps.map Prod.fst).sum)⁻¹
    ((comps.map (fun p => vsmul p.1 p.2)).foldl vadd ⟨0, 0, 0⟩)

/-- Events recording the invocation of the setup hooks of one item, used to
observe which work SimulationItem::setup performs. -/
inductive SetupEvent
  | selfBefore
  | selfAfter
  deriving DecidableEq

/-- A simulation item: the _setupStarted guard flag together with the child
items. All children are taken to be SimulationItem instances, matching the
successful dynamic_cast branch of SimulationItem::setup. -/
inductive Item
  | node (setupStarted : Bool) (children : List Item)

/-- The _setupStarted flag of an item. -/
def started : Item → Bool
  | .node b _ => b

mutual

/-- Embedding of SimulationItem::setup (SimulationItem.cpp): if the
_setupStarted guard is set the call returns immediately; otherwise the
guard is set, setupSelfBefore runs, every child is set up recursively, and
setupSelfAfter runs. The result is the updated item together with the trace
of hook invocations performed on this item and its descendants. -/
def setup : Item → Item × List SetupEvent
  | .node true cs => (.node true cs, [])
  | .node false cs =>
    (.node true (setupList cs).1,
      SetupEvent.selfBefore :: ((setupList cs).2 ++ [SetupEvent.selfAfter]))

/-- Sets up each item of a list in order, concatenating the event traces. -/
def setupList : List Item → List Item × List SetupEvent
  | [] => ([], [])
  | c :: rest => ((setup c).1 :: (setupList rest).1, (setup c).2 ++ (setupList rest).2)

end

/-- Classification of one line of a text input file header, as seen by
getNextInfoLine (TextInFile.cpp): a line whose first non-whitespace
character is not a hash ends the header; a hash line matching the
structured syntax column N : description (unit) yields its parts; any
other hash line is skipped. The regular-expression match itself is
abstracted into this classification. -/
inductive HLine
  | data
  | plainComment
  | info (idx : Nat) (title : String) (unit : String)
  deriving DecidableEq

/-- Embedding of getNextInfoLine (TextInFile.cpp): reads until a conforming
header line is found, returning its parts and the remaining lines, or none
once the complete header has been consumed. -/
def getNextInfoLine : List HLine → Option ((Nat × String × String) × List HLine)
  | [] => none
  | .data :: _ => none
  | .plainComment :: rest => getNextInfoLine rest
  | .info i t u :: rest => some ((i, t, u), rest)

/-- The column-info record remembered for each declared file column: the
description found in the file and the unit string. -/
structure ColumnInfo where
  title : String
  unit : String
  deriving DecidableEq

/-- Embedding of the header-reading loop of the TextInFile constructor
(TextInFile.cpp): for each conforming header line, a record is appended and
the declared column index is checked against the running count (n holds the
number of records already accepted); a mismatch throws a fatal error,
embedded as the error result. -/
def readHeader : List HLine → Nat → Except Unit (List ColumnInfo)
  | [], _ => .ok []
  | .data :: _, _ => .ok []
  | .plainComment :: rest, n => readHeader rest n
  | .info i t u :: rest, n =>
    if i = n + 1 then
      match readHeader rest (n + 1) with
      | .ok cs => .ok (ColumnInfo.mk t u :: cs)
      | .error e => .error e
    else .error ()

/-- The conforming header lines of a file, in order: info lines collected
while skipping other hash lines, stopping at the first line whose first
non-whitespace character is not a hash. -/
def confLines : List HLine → List (Nat × String × String)
  | [] => []
  | .data :: _ => []
  | .plainComment :: rest => confLines rest
  | .info i t u :: rest => (i, t, u) :: confLines rest

/-- The _numFileCols value recorded by the TextInFile constructor: the number
of column records read from the header (zero if construction fails). -/
def numFileCols (ls : List HLine) : Nat :=
  match readHeader ls 0 with
  | .ok cs => cs.length
  | .error _ => 0

/-! Theorems. -/

theorem cumTauBoundaries_head (k : Nat → ℚ) (t : ℚ) (path : List Segment) :
    (cumTauBoundaries k t path).head? = some t := by
  cases path <;> rfl

theorem cumTauBoundaries_getLast (k : Nat → ℚ) (t : ℚ) (path : List Segment) :
    (cumTauBoundaries k t path).getLast? = some (t + (path.map (segTau k)).sum) := by
  induction path generalizing t with
  | nil => simp [cumTauBoundaries]
  | cons s rest ih =>
    obtain ⟨a, l, hEq⟩ : ∃ a l, cumTauBoundaries k (t + segTau k s) rest = a :: l := by
      cases rest <;> exact ⟨_, _, rfl⟩
    rw [cumTauBoundaries, hEq, List.getLast?_cons_cons, ← hEq, ih]
    simp [add_assoc]

theorem cumTauBoundaries_chain (k : Nat → ℚ) (t : ℚ) (path : List Segment)
    (hk : ∀ m, 0 ≤ k m) (hds : ∀ s ∈ path, 0 ≤ s.ds) :
    (cumTauBoundaries k t path).Chain' (fun a b => a ≤ b) := by
  induction path generalizing t with
  | nil => simp [cumTauBoundaries]
  | cons s rest ih =>
    rw [cumTauBoundaries, List.chain'_cons']
    refine ⟨?_, ih (t + segTau k s) (fun s2 hs2 => hds s2 (List.mem_cons_of_mem _ hs2))⟩
    intro b hb
    rw [cumTauBoundaries_head, Option.mem_def, Option.some_inj] at hb
    have hτ : 0 ≤ segTau k s := mul_nonneg (hds s (List.mem_cons_self _ _)) (hk s.cell)
    subst hb
    linarith

/-- C1: for every photon packet path and matching material-type filter, the
cumulative optical depth written by the forced-scattering trace is
monotonically non-decreasing along the path, starts at 0 at path entry, and
its value at the final segment boundary equals the scalar total returned by
the full-path query. -/
theorem setOpticalDepths_matches_getOpticalDepth (k : Nat → ℚ) (path : List Segment)
    (hk : ∀ m, 0 ≤ k m) (hds : ∀ s ∈ path, 0 ≤ s.ds) :
    (setOpticalDepths k path).Chain' (fun a b => a ≤ b) ∧
    (setOpticalDepths k path).head? = some 0 ∧
    (setOpticalDepths k path).getLast? = some (getOpticalDepthPath k path) := by
  refine ⟨cumTauBoundaries_chain k 0 path hk hds, cumTauBoundaries_head k 0 path, ?_⟩
  rw [setOpticalDepths, cumTauBoundaries_getLast, getOpticalDepthPath, zero_add]

/-- Witness for C1 at a concrete path with unit opacity. -/
theorem setOpticalDepths_matches_getOpticalDepth_witness :
    (setOpticalDepths (fun _ => 1) [⟨0, 2⟩, ⟨1, 3⟩]).Chain' (fun a b => a ≤ b) ∧
    (setOpticalDepths (fun _ => 1) [⟨0, 2⟩, ⟨1, 3⟩]).head? = some 0 ∧
    (setOpticalDepths (fun _ => 1) [⟨0, 2⟩, ⟨1, 3⟩]).getLast? =
      some (getOpticalDepthPath (fun _ => 1) [⟨0, 2⟩, ⟨1, 3⟩]) :=
  setOpticalDepths_matches_getOpticalDepth (fun _ => 1) [⟨0, 2⟩, ⟨1, 3⟩]
    (fun _ => by norm_num) (by decide)

theorem totalLength_nonneg (path : List Segment) (hds : ∀ s ∈ path, 0 ≤ s.ds) :
    0 ≤ totalLength path := by
  refine List.sum_nonneg ?_
  intro x hx
  obtain ⟨s, hs, rfl⟩ := List.mem_map.mp hx
  exact hds s hs

theorem interactionWalk_const_success (c tauscat : ℚ) (hc : 0 < c)
    (path : List Segment) (d t : ℚ) (hds : ∀ s ∈ path, 0 ≤ s.ds)
    (hinv : t = c * d) (hle : t ≤ tauscat)
    (hlt : tauscat < t + c * totalLength path) :
    interactionWalk (fun _ => c) tauscat path d t = some (tauscat / c) := by
  induction path generalizing d t with
  | nil =>
    rw [totalLength] at hlt
    simp at hlt
    linarith
  | cons s rest ih =>
    have hseg : segTau (fun _ => c) s = s.ds * c := rfl
    have hts : totalLength (s :: rest) = s.ds + totalLength rest := by
      simp [totalLength]
    rw [interactionWalk]
    by_cases hcond : tauscat < t + segTau (fun _ => c) s
    · rw [if_pos hcond]
      rw [hseg] at hcond
      have hdspos : 0 < s.ds := by
        rcases lt_or_eq_of_le (hds s (List.mem_cons_self _ _)) with h | h
        · exact h
        · rw [← h, zero_mul, add_zero] at hcond
          linarith
      have hne : s.ds * c ≠ 0 := ne_of_gt (mul_pos hdspos hc)
      rw [hseg, Option.some_inj]
      field_simp
      rw [hinv]
      ring
    · rw [if_neg hcond]
      push_neg at hcond
      rw [hseg] at hcond
      refine ih (d + s.ds) (t + segTau (fun _ => c) s)
        (fun s2 hs2 => hds s2 (List.mem_cons_of_mem _ hs2)) ?_ ?_ ?_
      · rw [hseg, hinv]; ring
      · rw [hseg]; exact hcond
      · rw [hseg]
        rw [hts] at hlt
        ring_nf at hlt ⊢
        linarith

theorem interactionWalk_const_fail (c tauscat : ℚ) (hc : 0 ≤ c)
    (path : List Segment) (d t : ℚ) (hds : ∀ s ∈ path, 0 ≤ s.ds)
    (hge : t + c * totalLength path ≤ tauscat) :
    interactionWalk (fun _ => c) tauscat path d t = none := by
  induction path generalizing d t with
  | nil => rfl
  | cons s rest ih =>
    have hseg : segTau (fun _ => c) s = s.ds * c := rfl
    have hts : totalLength (s :: rest) = s.ds + totalLength rest := by
      simp [totalLength]
    have hrest : 0 ≤ totalLength rest :=
      totalLength_nonneg rest (fun s2 hs2 => hds s2 (List.mem_cons_of_mem _ hs2))
    rw [hts] at hge
    have hcond : ¬ tauscat < t + segTau (fun _ => c) s := by
      rw [hseg]
      push_neg
      nlinarith
    rw [interactionWalk, if_neg hcond]
    refine ih (d + s.ds) (t + segTau (fun _ => c) s)
      (fun s2 hs2 => hds s2 (List.mem_cons_of_mem _ hs2)) ?_
    rw [hseg]
    ring_nf at hge ⊢
    linarith

/-- C2: along a path with spatially constant extinction opacity c greater
than 0 and total geometric length S, the interaction-point search with a
target optical depth below c times S succeeds and stores the interaction
distance tauscat / c; with a target at or beyond c times S it reports
failure (none) rather than an error. -/
theorem setInteractionPoint_const_spec (c tauscat : ℚ) (path : List Segment)
    (hc : 0 < c) (ht : 0 ≤ tauscat) (hds : ∀ s ∈ path, 0 ≤ s.ds) :
    (tauscat < c * totalLength path →
      setInteractionPoint (fun _ => c) tauscat path = some (tauscat / c)) ∧
    (c * totalLength path ≤ tauscat →
      setInteractionPoint (fun _ => c) tauscat path = none) := by
  constructor
  · intro hlt
    refine interactionWalk_const_success c tauscat hc path 0 0 hds (by ring) ht ?_
    linarith
  · intro hge
    refine interactionWalk_const_fail c tauscat (le_of_lt hc) path 0 0 hds ?_
    linarith

/-- Witness for C2: on a single segment of length 3 with opacity 2, target 4
yields distance 2 and target 8 yields failure. -/
theorem setInteractionPoint_const_spec_witness :
    setInteractionPoint (fun _ => 2) 4 [⟨0, 3⟩] = some 2 ∧
    setInteractionPoint (fun _ => 2) 8 [⟨0, 3⟩] = none := by
  constructor
  · have h := (setInteractionPoint_const_spec 2 4 [⟨0, 3⟩] (by norm_num) (by norm_num)
      (by decide)).1 (by norm_num [totalLength])
    rw [h]
    norm_num
  · exact (setInteractionPoint_const_spec 2 8 [⟨0, 3⟩] (by norm_num) (by norm_num)
      (by decide)).2 (by norm_num [totalLength])

theorem peelOffWalk_overflow (k : Nat → ℚ) (cutoff taumax : ℚ) (path : List Segment)
    (d t : ℚ) (hle : t ≤ taumax) (hover : taumax < t + includedTau k cutoff path d) :
    peelOffWalk k cutoff taumax path d t = .infinite := by
  induction path generalizing d t with
  | nil =>
    rw [includedTau] at hover
    linarith
  | cons s rest ih =>
    rw [includedTau] at hover
    rw [peelOffWalk]
    by_cases hd : d < cutoff
    · rw [if_pos hd] at hover ⊢
      by_cases hmax : taumax < t + segTau k s
      · rw [if_pos hmax]
      · rw [if_neg hmax]
        push_neg at hmax
        refine ih (d + s.ds) (t + segTau k s) hmax ?_
        linarith
    · rw [if_neg hd] at hover ⊢
      rw [zero_add] at hover
      exact ih (d + s.ds) t hle hover

/-- C3: whenever the total optical depth of the segments included by the
distance cutoff exceeds taumax = ln(L / Lmin), the distance-limited
peel-off trace returns the effectively-infinite sentinel rather than a
finite accumulated value. -/
theorem getOpticalDepthLim_overflow (k : Nat → ℚ) (cutoff taumax : ℚ)
    (path : List Segment) (h0 : 0 ≤ taumax)
    (hover : taumax < includedTau k cutoff path 0) :
    getOpticalDepthLim k cutoff taumax path = .infinite := by
  refine peelOffWalk_overflow k cutoff taumax path 0 0 h0 ?_
  linarith

/-- Witness for C3: one included segment of optical depth 2 against
taumax = 1 yields the sentinel. -/
theorem getOpticalDepthLim_overflow_witness :
    getOpticalDepthLim (fun _ => 1) 10 1 [⟨0, 2⟩] = .infinite :=
  getOpticalDepthLim_overflow (fun _ => 1) 10 1 [⟨0, 2⟩] (by norm_num)
    (by norm_num [includedTau, segTau])

theorem storeAllSecondary_cons (p : Nat × Nat × ℚ) (rest : List (Nat × Nat × ℚ))
    (s : RFState) :
    storeAllSecondary (p :: rest) s
      = storeAllSecondary rest (storeRadiationField false p.1 p.2.1 p.2.2 s) := rfl

theorem storeAllSecondary_rf1 (stores : List (Nat × Nat × ℚ)) (s : RFState) :
    (storeAllSecondary stores s).rf1 = s.rf1 := by
  induction stores generalizing s with
  | nil => rfl
  | cons p rest ih => rw [storeAllSecondary_cons, ih]; rfl

theorem storeAllSecondary_rf2 (stores : List (Nat × Nat × ℚ)) (s : RFState) :
    (storeAllSecondary stores s).rf2 = s.rf2 := by
  induction stores generalizing s with
  | nil => rfl
  | cons p rest ih => rw [storeAllSecondary_cons, ih]; rfl

/-- C5: clearRadiationField with primary true zeroes every entry of both the
primary table and the stable secondary table; with primary false it zeroes
every entry of the temporary secondary table and leaves every entry of the
primary and the stable secondary tables unchanged. -/
theorem clearRadiationField_spec (s : RFState) :
    (∀ m ell, (clearRadiationField true s).rf1 m ell = 0) ∧
    (∀ m ell, (clearRadiationField true s).rf2 m ell = 0) ∧
    (∀ m ell, (clearRadiationField false s).rf2c m ell = 0) ∧
    (clearRadiationField false s).rf1 = s.rf1 ∧
    (clearRadiationField false s).rf2 = s.rf2 :=
  ⟨fun _ _ => rfl, fun _ _ => rfl, fun _ _ => rfl, rfl, rfl⟩

/-- C4: after clearRadiationField with primary false, an arbitrary sequence
of secondary stores changes no radiationField or meanIntensity value, and
the previously synchronized stable secondary contribution remains visible
unchanged, until communicateRadiationField is invoked. -/
theorem secondary_cycle_isolation (s : RFState) (stores : List (Nat × Nat × ℚ))
    (fourPi : ℚ) (V dlam : Nat → ℚ) :
    (∀ m ell,
      radiationField (storeAllSecondary stores (clearRadiationField false s)) m ell
        = radiationField s m ell) ∧
    (storeAllSecondary stores (clearRadiationField false s)).rf2 = s.rf2 ∧
    (∀ m ell,
      meanIntensity fourPi V dlam (storeAllSecondary stores (clearRadiationField false s)) m ell
        = meanIntensity fourPi V dlam s m ell) := by
  have h1 : (storeAllSecondary stores (clearRadiationField false s)).rf1 = s.rf1 := by
    rw [storeAllSecondary_rf1]; rfl
  have h2 : (storeAllSecondary stores (clearRadiationField false s)).rf2 = s.rf2 := by
    rw [storeAllSecondary_rf2]; rfl
  refine ⟨fun m ell => ?_, h2, fun m ell => ?_⟩
  · rw [radiationField, radiationField, h1, h2]
  · rw [meanIntensity, meanIntensity, radiationField, radiationField, h1, h2]

/-- C6: clearing with primary true, storing the value X into cell 2 and
wavelength bin 5 of the primary table, then synchronizing, yields a mean
intensity of exactly X / (fourPi V_2 dlam_5) in that bin, zero in every
other bin, and zero contribution from the secondary tables; in general the
mean intensity of a bin is the accumulated value divided by
fourPi V_m dlam_ell. -/
theorem primary_round_trip (s : RFState) (X fourPi : ℚ) (V dlam : Nat → ℚ) :
    meanIntensity fourPi V dlam
      (communicateRadiationField true
        (storeRadiationField true 2 5 X (clearRadiationField true s))) 2 5
      = X / (fourPi * V 2 * dlam 5) ∧
    (∀ m ell,
      (communicateRadiationField true
        (storeRadiationField true 2 5 X (clearRadiationField true s))).rf2 m ell = 0) ∧
    (∀ m ell, ¬(m = 2 ∧ ell = 5) →
      meanIntensity fourPi V dlam
        (communicateRadiationField true
          (storeRadiationField true 2 5 X (clearRadiationField true s))) m ell = 0) ∧
    (∀ m ell,
      meanIntensity fourPi V dlam
        (communicateRadiationField true
          (storeRadiationField true 2 5 X (clearRadiationField true s))) m ell
        = radiationField (communicateRadiationField true
            (storeRadiationField true 2 5 X (clearRadiationField true s))) m ell
          / (fourPi * V m * dlam ell)) := by
  refine ⟨?_, fun m ell => rfl, fun m ell h => ?_, fun m ell => rfl⟩
  · simp [meanIntensity, radiationField, communicateRadiationField, storeRadiationField,
      clearRadiationField, addAt]
  · simp [meanIntensity, radiationField, communicateRadiationField, storeRadiationField,
      clearRadiationField, addAt, h]

/-- Witness for C6 at a concrete state with nonzero prior tables. -/
theorem primary_round_trip_witness :
    meanIntensity 12 (fun _ => 2) (fun _ => 3)
      (communicateRadiationField true (storeRadiationField true 2 5 5
        (clearRadiationField true ⟨fun _ _ => 7, fun _ _ => 8, fun _ _ => 9⟩))) 2 5
      = 5 / 72 ∧
    meanIntensity 12 (fun _ => 2) (fun _ => 3)
      (communicateRadiationField true (storeRadiationField true 2 5 5
        (clearRadiationField true ⟨fun _ _ => 7, fun _ _ => 8, fun _ _ => 9⟩))) 0 1
      = 0 := by
  have h := primary_round_trip ⟨fun _ _ => 7, fun _ _ => 8, fun _ _ => 9⟩ 5 12
    (fun _ => 2) (fun _ => 3)
  refine ⟨?_, h.2.2.1 0 1 (by decide)⟩
  rw [h.1]
  norm_num

theorem sum_map_div (l : List ℚ) (c : ℚ) :
    (l.map (fun x => x / c)).sum = l.sum / c := by
  induction l with
  | nil => simp
  | cons a t ih => simp [ih, add_div]

theorem sum_pos_of_mem_pos (l : List ℚ) (h : ∀ x ∈ l, 0 ≤ x)
    (hx : ¬ ∀ x ∈ l, x = 0) : 0 < l.sum := by
  induction l with
  | nil => simp at hx
  | cons a t ih =>
    rcases lt_or_eq_of_le (h a (List.mem_cons_self _ _)) with ha | ha
    · have ht : 0 ≤ t.sum := List.sum_nonneg (fun x hxm => h x (List.mem_cons_of_mem _ hxm))
      rw [List.sum_cons]
      linarith
    · have hnt : ¬ ∀ x ∈ t, x = 0 := by
        intro hall
        refine hx ?_
        intro x hxm
        rcases List.mem_cons.mp hxm with h1 | h1
        · rw [h1, ← ha]
        · exact hall x h1
      have hres := ih (fun x hxm => h x (List.mem_cons_of_mem _ hxm)) hnt
      rw [List.sum_cons, ← ha, zero_add]
      exact hres

/-- C7: weightsForScattering reports failure exactly when every component
scattering opacity at the wavelength and cell is zero, and whenever at
least one opacity is nonzero it succeeds with weights summing to one. -/
theorem weightsForScattering_spec (ks : List ℚ) (hk : ∀ x ∈ ks, 0 ≤ x) :
    (weightsForScattering ks = none ↔ ∀ x ∈ ks, x = 0) ∧
    ((∃ x ∈ ks, x ≠ 0) →
      weightsForScattering ks = some (ks.map (fun x => x / ks.sum)) ∧
      (ks.map (fun x => x / ks.sum)).sum = 1) := by
  by_cases hall : ∀ x ∈ ks, x = 0
  · refine ⟨⟨fun _ => hall, fun _ => ?_⟩, fun hex => ?_⟩
    · rw [weightsForScattering, if_pos (by simpa [List.all_eq_true] using hall)]
    · obtain ⟨x, hx, hnz⟩ := hex
      exact absurd (hall x hx) hnz
  · have hpos : 0 < ks.sum := sum_pos_of_mem_pos ks hk hall
    have hsome : weightsForScattering ks = some (ks.map (fun x => x / ks.sum)) := by
      rw [weightsForScattering, if_neg (by simpa [List.all_eq_true] using hall)]
    refine ⟨⟨fun hnone => ?_, fun h => absurd h hall⟩, fun _ => ⟨hsome, ?_⟩⟩
    · rw [hsome] at hnone
      exact Option.noConfusion hnone
    · rw [sum_map_div, div_self (ne_of_gt hpos)]

/-- Witness for C7 at a concrete opacity list with one nonzero entry. -/
theorem weightsForScattering_spec_witness :
    weightsForScattering [(0 : ℚ), 3] = some [0, 1] := by
  have h := (weightsForScattering_spec [(0 : ℚ), 3] (by decide)).2 ⟨3, by decide, by decide⟩
  rw [h.1]
  norm_num

/-- C8: bulkVelocity is the density-weighted average of the component bulk
velocities; for two components with densities n1, n2 and velocities v1, v2
it equals (n1 v1 + n2 v2) / (n1 + n2), componentwise. -/
theorem bulkVelocity_two (n1 n2 : ℚ) (v1 v2 : Vec) :
    bulkVelocity [(n1, v1), (n2, v2)] =
      vsmul (1 / (n1 + n2)) (vadd (vsmul n1 v1) (vsmul n2 v2)) ∧
    (bulkVelocity [(n1, v1), (n2, v2)]).x = (n1 * v1.x + n2 * v2.x) / (n1 + n2) ∧
    (bulkVelocity [(n1, v1), (n2, v2)]).y = (n1 * v1.y + n2 * v2.y) / (n1 + n2) ∧
    (bulkVelocity [(n1, v1), (n2, v2)]).z = (n1 * v1.z + n2 * v2.z) / (n1 + n2) := by
  refine ⟨?_, ?_, ?_, ?_⟩ <;> simp [bulkVelocity, vadd, vsmul, Vec.mk.injEq] <;>
    ring_nf

/-- C9: SimulationItem::setup is idempotent: after a first call the
_setupStarted guard of the item is set, and a second call returns
immediately, invoking no setupSelfBefore, child setup, or setupSelfAfter
hooks (empty event trace) and leaving all item state unchanged. -/
theorem setup_idempotent (t : Item) :
    started (setup t).1 = true ∧ setup (setup t).1 = ((setup t).1, []) := by
  obtain ⟨b, cs⟩ := t
  cases b
  · rw [show setup (Item.node false cs)
        = (Item.node true (setupList cs).1,
            SetupEvent.selfBefore :: ((setupList cs).2 ++ [SetupEvent.selfAfter])) from rfl]
    exact ⟨rfl, rfl⟩
  · exact ⟨rfl, rfl⟩

theorem readHeader_dichotomy (ls : List HLine) (n : Nat) :
    (readHeader ls n = .ok ((confLines ls).map (fun p => ColumnInfo.mk p.2.1 p.2.2)) ∧
      ∀ j p, (confLines ls).get? j = some p → p.1 = n + j + 1) ∨
    (readHeader ls n = .error () ∧
      ∃ j p, (confLines ls).get? j = some p ∧ p.1 ≠ n + j + 1) := by
  induction ls generalizing n with
  | nil =>
    left
    refine ⟨rfl, fun j p hp => ?_⟩
    simp [confLines] at hp
  | cons l rest ih =>
    cases l with
    | data =>
      left
      refine ⟨rfl, fun j p hp => ?_⟩
      simp [confLines] at hp
    | plainComment =>
      simpa [readHeader, confLines] using ih n
    | info i ti u =>
      have hcl : confLines (HLine.info i ti u :: rest) = (i, ti, u) :: confLines rest := rfl
      by_cases hi : i = n + 1
      · rcases ih (n + 1) with ⟨hok, hall⟩ | ⟨herr, j, p, hp, hbad⟩
        · left
          refine ⟨?_, ?_⟩
          · simp only [readHeader, if_pos hi, hok, hcl, List.map_cons]
          · intro j p hp
            rw [hcl] at hp
            cases j with
            | zero =>
              rw [List.get?_cons_zero, Option.some_inj] at hp
              rw [← hp]
              simpa using hi
            | succ j2 =>
              rw [List.get?_cons_succ] at hp
              have hv := hall j2 p hp
              omega
        · right
          refine ⟨?_, j + 1, p, ?_, ?_⟩
          · simp only [readHeader, if_pos hi, herr]
          · rw [hcl, List.get?_cons_succ]
            exact hp
          · omega
      · right
        refine ⟨?_, 0, (i, ti, u), ?_, ?_⟩
        · simp only [readHeader, if_neg hi]
        · rw [hcl, List.get?_cons_zero]
        · simpa using hi

/-- C10: the TextInFile constructor accepts the structured header lines only
when their declared column indices form the consecutive sequence 1, 2, 3,
and so on in file order: a conforming line whose declared index differs
from its position makes construction throw a fatal error, and otherwise
exactly those columns are recorded and numFileCols equals their count. -/
theorem textInFile_header_spec (ls : List HLine) :
    ((∃ j, ∃ hj : j < (confLines ls).length, ((confLines ls).get ⟨j, hj⟩).1 ≠ j + 1) →
      readHeader ls 0 = .error ()) ∧
    ((∀ j (hj : j < (confLines ls).length), ((confLines ls).get ⟨j, hj⟩).1 = j + 1) →
      readHeader ls 0 = .ok ((confLines ls).map (fun p => ColumnInfo.mk p.2.1 p.2.2)) ∧
      numFileCols ls = (confLines ls).length) := by
  have hd := readHeader_dichotomy ls 0
  constructor
  · rintro ⟨j, hj, hbad⟩
    rcases hd with ⟨hok, hall⟩ | ⟨herr, _⟩
    · have hv := hall j _ (List.get?_eq_get hj)
      omega
    · exact herr
  · intro hall
    rcases hd with ⟨hok, _⟩ | ⟨herr, j, p, hp, hbad⟩
    · refine ⟨hok, ?_⟩
      simp [numFileCols, hok]
    · obtain ⟨hj, hg⟩ := List.get?_eq_some.mp hp
      have hv := hall j hj
      rw [hg] at hv
      omega

/-- Witness for C10 on a concrete header whose conforming lines declare the
indices 1 and 2 and whose header ends at the first data line. -/
theorem textInFile_header_spec_witness :
    readHeader [HLine.plainComment, HLine.info 1 ("x") ("pc"), HLine.info 2 ("rho") ("1"),
        HLine.data, HLine.info 9 ("q") ("z")] 0
      = .ok [⟨"x", "pc"⟩, ⟨"rho", "1"⟩] ∧
    numFileCols [HLine.plainComment, HLine.info 1 ("x") ("pc"), HLine.info 2 ("rho") ("1"),
        HLine.data, HLine.info 9 ("q") ("z")] = 2 := by
  have h := (textInFile_header_spec [HLine.plainComment, HLine.info 1 ("x") ("pc"),
    HLine.info 2 ("rho") ("1"), HLine.data, HLine.info 9 ("q") ("z")]).2 (by decide)
  exact ⟨by rw [h.1]; rfl, by rw [h.2]; rfl⟩

end Skirt
